import Mathlib

/-!
Verification development for the IDragnev/Functional combinator library
(headers include/invoke.hpp, include/firstOf.hpp, include/curry.hpp,
include/functional.hpp).  The C++ code resolves everything at compile time
through template dispatch; here the compile-time classification of a callable
and of an argument list is embedded as inductive tags, and a combination that
the C++ compiler rejects is modelled by the value none.
-/

namespace IDragnev.Functional

/-! ## invoke.hpp -/

/-- Model of std::reference_wrapper around an object of class type gamma:
the member get returns the wrapped object. -/
structure RefWrapper (γ : Type) where
  get : γ

/-- Model of a pointer or smart pointer to an object of class type gamma:
deref is the result of applying unary operator star. -/
structure Ptr (γ : Type) where
  deref : γ

/-- The three compile-time receiver shapes distinguished by
Detail::invokeMemberFunction / Detail::invokeMemberPointer via
is_base_of_v and isReferenceWrapper:
a direct instance of C or of a class derived from C (direct holds the
C subobject, which is what the member access acts on), a reference wrapper,
or a (smart) pointer. -/
inductive Receiver (γ : Type) where
  | direct (obj : γ)
  | refWrap (w : RefWrapper γ)
  | ptr (p : Ptr γ)

/-- Detail::invokeMemberFunction from include/invoke.hpp: branch on the
receiver shape, unwrap it accordingly and call the member function. -/
def invokeMemberFunction (f : γ → α → β) : Receiver γ → α → β
  | .direct obj, args => f obj args
  | .refWrap w, args => f w.get args
  | .ptr p, args => f p.deref args

/-- Detail::invokeMemberPointer from include/invoke.hpp: branch on the
receiver shape, unwrap it accordingly and project the data member. -/
def invokeMemberPointer (m : γ → β) : Receiver γ → β
  | .direct obj => m obj
  | .refWrap w => m w.get
  | .ptr p => m p.deref

/-- The compile-time classification of the callable F made by invoke:
a pointer to member function of class gamma, a pointer to data member of
class gamma, or a non-member callable. -/
inductive Callable (γ α β : Type) where
  | memberFn (f : γ → α → β)
  | memberData (m : γ → β)
  | free (g : α → β)

/-- The compile-time shape of the argument list given to invoke:
a single receiver argument, a receiver followed by further arguments,
or plain arguments that are not led by a receiver. -/
inductive CallArgs (γ α : Type) where
  | one (r : Receiver γ)
  | cons (r : Receiver γ) (rest : α)
  | plain (a : α)

/-- invoke from include/invoke.hpp.  A member function pointer is routed to
Detail::invokeMemberFunction with a receiver and the remaining arguments;
a data member pointer with exactly one argument is routed to
Detail::invokeMemberPointer; any other callable is applied directly.
A combination that is ill-formed in C++ (for which std::invoke_result_t
does not exist) is modelled as none. -/
def invoke : Callable γ α β → CallArgs γ α → Option β
  | .memberFn f, .cons r rest => some (invokeMemberFunction f r rest)
  | .memberFn _, .one _ => none
  | .memberFn _, .plain _ => none
  | .memberData m, .one r => some (invokeMemberPointer m r)
  | .memberData _, .cons _ _ => none
  | .memberData _, .plain _ => none
  | .free g, .plain a => some (g a)
  | .free _, .one _ => none
  | .free _, .cons _ _ => none

/-- The compile-time tag of a callable: which of the three type-level
classes of invoke it falls in.  The function values it carries are erased. -/
def Callable.tag : Callable γ α β → Nat
  | .memberFn _ => 0
  | .memberData _ => 1
  | .free _ => 2

/-- The compile-time tag of an argument list: its shape with the runtime
values erased. -/
def CallArgs.tag : CallArgs γ α → Nat
  | .one _ => 0
  | .cons _ _ => 1
  | .plain _ => 2

/-- The dispatch table of invoke as a function of the two compile-time tags
alone: true exactly for member-function pointer with receiver and arguments,
data-member pointer with a single receiver, and free callable with plain
arguments. -/
def dispatchAccepts : Nat → Nat → Bool
  | 0, 1 => true
  | 1, 0 => true
  | 2, 2 => true
  | _, _ => false

/-- C1: invoke applies a non-member callable directly; a member function
pointer is called on the receiver after unwrapping a direct or derived
instance, a reference wrapper, or a pointer; a data-member pointer with a
single receiver argument of any of the three shapes projects the member
instead of calling; and whether a combination is accepted is a function of
the compile-time tags of the callable and the argument list alone, never of
the runtime values. -/
theorem invoke_dispatch_spec (γ α β : Type) :
    (∀ (g : α → β) (a : α),
      invoke (Callable.free g : Callable γ α β) (CallArgs.plain a) = some (g a)) ∧
    (∀ (f : γ → α → β) (obj : γ) (rest : α),
      invoke (Callable.memberFn f) (CallArgs.cons (Receiver.direct obj) rest)
        = some (f obj rest)) ∧
    (∀ (f : γ → α → β) (w : RefWrapper γ) (rest : α),
      invoke (Callable.memberFn f) (CallArgs.cons (Receiver.refWrap w) rest)
        = some (f w.get rest)) ∧
    (∀ (f : γ → α → β) (p : Ptr γ) (rest : α),
      invoke (Callable.memberFn f) (CallArgs.cons (Receiver.ptr p) rest)
        = some (f p.deref rest)) ∧
    (∀ (m : γ → β) (obj : γ),
      invoke (Callable.memberData m : Callable γ α β)
          (CallArgs.one (Receiver.direct obj))
        = some (m obj)) ∧
    (∀ (m : γ → β) (w : RefWrapper γ),
      invoke (Callable.memberData m : Callable γ α β)
          (CallArgs.one (Receiver.refWrap w))
        = some (m w.get)) ∧
    (∀ (m : γ → β) (p : Ptr γ),
      invoke (Callable.memberData m : Callable γ α β)
          (CallArgs.one (Receiver.ptr p))
        = some (m p.deref)) ∧
    (∀ (f : Callable γ α β) (a : CallArgs γ α),
      (invoke f a).isSome = dispatchAccepts f.tag a.tag) := by
  refine ⟨fun g a => rfl, fun f obj rest => rfl, fun f w rest => rfl,
          fun f p rest => rfl, fun m obj => rfl, fun m w => rfl,
          fun m p => rfl, fun f a => ?_⟩
  cases f <;> cases a <;> rfl

/-! ## firstOf.hpp -/

/-- A candidate overload held by Detail::FirstOf.  accepts embeds
std::is_invocable_v of the candidate with the argument list: in the C++ it
only depends on the compile-time type of the arguments, so when the model is
instantiated, accepts inspects only the type tag of its argument.  deleted
records whether the candidate is wrapped in Deleted, i.e. whether its
invoke result type is Detail::DeletedT.  fn is the candidate body. -/
structure Candidate (α β : Type) where
  accepts : α → Bool
  deleted : Bool
  fn : α → β

/-- A plain callable handed to firstOf. -/
def plainCandidate (accepts : α → Bool) (fn : α → β) : Candidate α β :=
  ⟨accepts, false, fn⟩

/-- The Deleted wrapper from include/firstOf.hpp: invocable exactly when the
wrapped callable is, but its declared result type is Detail::DeletedT. -/
def Deleted (c : Candidate α β) : Candidate α β :=
  { c with deleted := true }

/-- Detail::FirstOf::operator() from include/firstOf.hpp.  The empty pack
FirstOf is an empty class with no call operator, hence never callable
(none).  Otherwise FirstOverloadMatched is is_invocable of the head; when it
holds and the result type of the head is DeletedT the call operator is removed by
enable_if and the explicitly deleted overload matches, so the whole object is
not callable with these arguments (none); when the head matched and is not
deleted it alone is invoked; when the head did not match the call goes to the
nested FirstOf of the remaining candidates. -/
def firstOfCall : List (Candidate α β) → α → Option β
  | [], _ => none
  | c :: cs, a =>
    if c.accepts a then
      if c.deleted then none else some (c.fn a)
    else firstOfCall cs a

/-- C2: when candidate i accepts the argument, no earlier candidate accepts
it, and candidate i is not a Deleted wrapper, the FirstOf object invokes
exactly candidate i and returns its result; all later candidates are
ignored. -/
theorem firstOf_picks_first_match (cs : List (Candidate α β)) (a : α)
    (i : Nat) (hi : i < cs.length)
    (hacc : (cs.get ⟨i, hi⟩).accepts a = true)
    (hbefore : ∀ j, (hj : j < i) → (cs.get ⟨j, hj.trans hi⟩).accepts a = false)
    (hnotdel : (cs.get ⟨i, hi⟩).deleted = false) :
    firstOfCall cs a = some ((cs.get ⟨i, hi⟩).fn a) := by
  induction cs generalizing i with
  | nil => exact absurd hi (Nat.not_lt_zero i)
  | cons c cs ih =>
    cases i with
    | zero =>
      simp only [List.get] at hacc hnotdel ⊢
      simp [firstOfCall, hacc, hnotdel]
    | succ i =>
      have h0 : c.accepts a = false := hbefore 0 (Nat.succ_pos i)
      simp only [List.get] at hacc hnotdel ⊢
      rw [firstOfCall, h0]
      simp only [Bool.false_eq_true, if_false]
      exact ih i (Nat.lt_of_succ_lt_succ hi) hacc
        (fun j hj => hbefore (j + 1) (Nat.succ_lt_succ hj)) hnotdel

/-- Witness for C2 at a concrete input. -/
theorem firstOf_picks_first_match_witness :
    firstOfCall
      [plainCandidate (fun n : Nat => n == 0) (fun _ => (10 : Int)),
       plainCandidate (fun _ => true) (fun _ => (20 : Int))]
      1 = some 20 := by
  have h := firstOf_picks_first_match
    [plainCandidate (fun n : Nat => n == 0) (fun _ => (10 : Int)),
     plainCandidate (fun _ => true) (fun _ => (20 : Int))]
    1 1 (by decide) (by decide)
    (fun j hj => by
      have h0 : j = 0 := Nat.lt_one_iff.mp hj
      subst h0
      rfl)
    (by decide)
  exact h

/-- C3: when the first candidate accepting the argument list is a Deleted
wrapper, the FirstOf object is not callable with that argument list at all;
in particular the call does not fall through to any later candidate. -/
theorem firstOf_deleted_blocks (cs : List (Candidate α β)) (a : α)
    (i : Nat) (hi : i < cs.length)
    (hacc : (cs.get ⟨i, hi⟩).accepts a = true)
    (hbefore : ∀ j, (hj : j < i) → (cs.get ⟨j, hj.trans hi⟩).accepts a = false)
    (hdel : (cs.get ⟨i, hi⟩).deleted = true) :
    firstOfCall cs a = none := by
  induction cs generalizing i with
  | nil => exact absurd hi (Nat.not_lt_zero i)
  | cons c cs ih =>
    cases i with
    | zero =>
      simp only [List.get] at hacc hdel
      simp [firstOfCall, hacc, hdel]
    | succ i =>
      have h0 : c.accepts a = false := hbefore 0 (Nat.succ_pos i)
      simp only [List.get] at hacc hdel
      rw [firstOfCall, h0]
      simp only [Bool.false_eq_true, if_false]
      exact ih i (Nat.lt_of_succ_lt_succ hi) hacc
        (fun j hj => hbefore (j + 1) (Nat.succ_lt_succ hj)) hdel

/-- Witness for C3 at a concrete input: the second candidate is deleted and
accepts, the third would also accept but is not reached. -/
theorem firstOf_deleted_blocks_witness :
    firstOfCall
      [plainCandidate (fun n : Nat => n == 0) (fun _ => (10 : Int)),
       Deleted (plainCandidate (fun _ => true) (fun _ => (20 : Int))),
       plainCandidate (fun _ => true) (fun _ => (30 : Int))]
      7 = none := by
  have h := firstOf_deleted_blocks
    [plainCandidate (fun n : Nat => n == 0) (fun _ => (10 : Int)),
     Deleted (plainCandidate (fun _ => true) (fun _ => (20 : Int))),
     plainCandidate (fun _ => true) (fun _ => (30 : Int))]
    7 1 (by decide) (by decide)
    (fun j hj => by
      have h0 : j = 0 := Nat.lt_one_iff.mp hj
      subst h0
      rfl)
    (by decide)
  exact h

/-! The concrete scenario of the test case
"implicit conversions are dangerous!" in tests/functional.cpp:
candidates taking double, Deleted(int) and Third, called with an int. -/

/-- The compile-time type of the argument in the firstOf test: an int, a
double, or the empty class Third.  Only this tag is inspected by the
acceptance conditions of the candidates. -/
inductive TestArg where
  | intArg (n : Int)
  | doubleArg (q : Int)
  | thirdArg
deriving DecidableEq

/-- The candidate [](double) { return 1; }: a double parameter also accepts
an int argument through an implicit conversion. -/
def doubleCandidate : Candidate TestArg Int :=
  plainCandidate
    (fun a => match a with
      | .intArg _ => true
      | .doubleArg _ => true
      | .thirdArg => false)
    (fun _ => 1)

/-- The candidate [](int) { return 2; }, wrapped in Deleted in the test; an
int parameter also accepts a double argument through an implicit
conversion. -/
def intCandidate : Candidate TestArg Int :=
  plainCandidate
    (fun a => match a with
      | .intArg _ => true
      | .doubleArg _ => true
      | .thirdArg => false)
    (fun _ => 2)

/-- The candidate [](Third) { return 3; }. -/
def thirdCandidate : Candidate TestArg Int :=
  plainCandidate
    (fun a => match a with
      | .thirdArg => true
      | _ => false)
    (fun _ => 3)

/-- C10: matching is by invocability, which admits implicit conversions, not
by exact parameter-type equality.  For firstOf([](double), Deleted([](int)),
[](Third)), a call with an int argument is accepted and invokes the double
candidate, returning 1, even though the later Deleted(int) candidate matches
the argument type exactly; a Third argument still reaches the last
candidate. -/
theorem firstOf_implicit_conversion_selects_earlier :
    firstOfCall [doubleCandidate, Deleted intCandidate, thirdCandidate]
      (TestArg.intArg 1) = some 1 ∧
    (firstOfCall [doubleCandidate, Deleted intCandidate, thirdCandidate]
      (TestArg.intArg 1)).isSome = true ∧
    firstOfCall [doubleCandidate, Deleted intCandidate, thirdCandidate]
      TestArg.thirdArg = some 3 := by
  refine ⟨rfl, rfl, rfl⟩

/-! ## functional.hpp: compose -/

/-- The binary compose from include/functional.hpp: the returned lambda
feeds its arguments to g and the result of g to f.  The two static_asserts
of the C++ body are invocability conditions that the Lean function types
carry. -/
def compose (f : β → γ) (g : α → β) : α → γ := fun x => f (g x)

/-- The variadic compose from include/functional.hpp:
compose(f, g, funs...) = compose(compose(f, g), funs...).  The trailing
functions are taken homogeneous so the chain can be a list. -/
def composeMany (f : α → β) : List (α → α) → (α → β)
  | [] => f
  | g :: gs => composeMany (compose f g) gs

/-- Mathematical composition of a list of functions, written from the spec
side for comparison: mathCompose [g1, ..., gn] x = g1 (g2 (... (gn x))). -/
def mathCompose : List (α → α) → α → α
  | [], x => x
  | g :: gs, x => g (mathCompose gs x)

/-- C4: compose(f, g)(x) = f(g(x)); the variadic overload is the left-nested
composition compose(compose(f, g), funs...); and composing f with
g1, ..., gn and applying to an input equals the mathematical composition
f after g1 after ... after gn applied to that input. -/
theorem compose_spec (α β γ : Type) :
    (∀ (f : β → γ) (g : α → β) (x : α), compose f g x = f (g x)) ∧
    (∀ (f : α → β) (g : α → α) (gs : List (α → α)),
      composeMany f (g :: gs) = composeMany (compose f g) gs) ∧
    (∀ (f : α → β) (gs : List (α → α)) (x : α),
      composeMany f gs x = f (mathCompose gs x)) := by
  refine ⟨fun f g x => rfl, fun f g gs => rfl, fun f gs => ?_⟩
  induction gs generalizing f with
  | nil => intro x; rfl
  | cons g gs ih =>
    intro x
    calc composeMany f (g :: gs) x
        = composeMany (compose f g) gs x := rfl
      _ = compose f g (mathCompose gs x) := ih (compose f g) x
      _ = f (mathCompose (g :: gs) x) := rfl

/-! ## curry.hpp -/

/-- A callable of one fixed signature, as curried by curry: it expects
exactly arity arguments (fn is only meaningful on lists of that length).
is_invocable of the callable with an argument list depends only on the
number of arguments supplied. -/
structure NAryFn (V R : Type) where
  arity : Nat
  fn : List V → R

/-- std::is_invocable_v of an NAryFn with an argument list. -/
def isInvocableWith (f : NAryFn V R) (args : List V) : Bool :=
  args.length == f.arity

/-- The outcome of one call of the lambda returned by Detail::curryImpl:
either f became invocable and was invoked (done), or a new lambda holding
the enlarged bound-argument list was returned (more). -/
inductive CurryResult (V R : Type) where
  | done (r : R)
  | more (bound : List V)
deriving DecidableEq

/-- One call of the lambda returned by Detail::curryImpl with bound
arguments bound and fresh arguments newArgs: if f is invocable with
bound ++ newArgs it is invoked, otherwise curryImpl recurses with the
enlarged argument list. -/
def curryStep (f : NAryFn V R) (bound newArgs : List V) : CurryResult V R :=
  if isInvocableWith f (bound ++ newArgs) then .done (f.fn (bound ++ newArgs))
  else .more (bound ++ newArgs)

/-- Successive calls of the curried function, one argument group per call,
starting from the bound arguments accumulated so far.  The run yields a
result only when the last group completes the argument list: completing
early would make the next call an application of the result, not of the
curried function, and running out of groups leaves a lambda, not a
result. -/
def curryRun (f : NAryFn V R) (bound : List V) : List (List V) → Option R
  | [] => none
  | g :: gs =>
    match curryStep f bound g with
    | .done r => if gs.isEmpty then some r else none
    | .more b => curryRun f b gs

/-- Helper for C5, generalised over the accumulated bound arguments:
when the groups complete the argument list exactly at the last call and
every earlier call leaves it incomplete, the run invokes f on the full
argument list. -/
theorem curryRun_complete (f : NAryFn V R) (groups : List (List V)) :
    ∀ bound : List V, groups ≠ [] →
    (bound ++ groups.flatten).length = f.arity →
    (∀ k, k < groups.length →
      (bound ++ (groups.take k).flatten).length < f.arity) →
    curryRun f bound groups = some (f.fn (bound ++ groups.flatten)) := by
  induction groups with
  | nil => intro bound hne _ _; exact absurd rfl hne
  | cons g gs ih =>
    intro bound _ htotal hpart
    cases gs with
    | nil =>
      have hlen : bound.length + g.length = f.arity := by
        simpa [List.flatten_cons, List.flatten_nil, List.length_append]
          using htotal
      simp [curryRun, curryStep, isInvocableWith, hlen,
            List.flatten_cons, List.flatten_nil]
    | cons g2 gs2 =>
      have hlt : (bound ++ g).length < f.arity := by
        have h1 := hpart 1 (by simp)
        simpa [List.flatten_cons, List.flatten_nil] using h1
      have hne3 : ¬ bound.length + g.length = f.arity := by
        have h2 := Nat.ne_of_lt hlt
        simpa [List.length_append] using h2
      have hstep : curryStep f bound g = CurryResult.more (bound ++ g) := by
        simp [curryStep, isInvocableWith, hne3]
      rw [curryRun, hstep]
      have htotal2 : ((bound ++ g) ++ (g2 :: gs2).flatten).length = f.arity := by
        simpa [List.flatten_cons, List.append_assoc] using htotal
      have hpart2 : ∀ k, k < (g2 :: gs2).length →
          ((bound ++ g) ++ ((g2 :: gs2).take k).flatten).length < f.arity := by
        intro k hk
        have h2 := hpart (k + 1) (Nat.succ_lt_succ hk)
        simpa [List.flatten_cons, List.append_assoc] using h2
      have h3 := ih (bound ++ g) (by simp) htotal2 hpart2
      simpa [List.flatten_cons, List.append_assoc] using h3

/-- C5: splitting the full argument list a1..an of f into consecutive
groups supplied over successive calls, the curried function
(started with no bound arguments) returns f applied to the full list at the
call that completes it; and every call that does not complete the argument
list returns the accumulating lambda holding the arguments supplied so
far. -/
theorem curry_grouped_eq_full_application (f : NAryFn V R)
    (groups : List (List V))
    (hne : groups ≠ [])
    (htotal : groups.flatten.length = f.arity)
    (hpart : ∀ k, k < groups.length →
      ((groups.take k).flatten).length < f.arity) :
    curryRun f [] groups = some (f.fn groups.flatten) ∧
    ∀ (bound newArgs : List V), (bound ++ newArgs).length ≠ f.arity →
      curryStep f bound newArgs = CurryResult.more (bound ++ newArgs) := by
  constructor
  · have h := curryRun_complete f groups [] hne (by simpa using htotal)
      (fun k hk => by simpa using hpart k hk)
    simpa using h
  · intro bound newArgs hne2
    have hne3 : ¬ bound.length + newArgs.length = f.arity := by
      simpa [List.length_append] using hne2
    simp [curryStep, isInvocableWith, hne3]

/-- Witness for C5: a ternary sum curried as one argument then two. -/
theorem curry_grouped_eq_full_application_witness :
    curryRun (⟨3, fun l => l.foldr (fun x y => x + y) 0⟩ : NAryFn Nat Nat)
      [] [[1], [2, 3]] = some 6 ∧
    curryStep (⟨3, fun l => l.foldr (fun x y => x + y) 0⟩ : NAryFn Nat Nat)
      [1] [2] = CurryResult.more [1, 2] := by
  have h := curry_grouped_eq_full_application
    (⟨3, fun l => l.foldr (fun x y => x + y) 0⟩ : NAryFn Nat Nat)
    [[1], [2, 3]] (by simp) (by decide) (by decide)
  exact ⟨h.1, h.2 [1] [2] (by decide)⟩

/-! ## functional.hpp: superpose, allOf, anyOf -/

/-- Detail::andAll from include/functional.hpp: the right fold of the
fold expression (args && ...), true on the empty pack. -/
def andAll (bs : List Bool) : Bool := bs.foldr (fun x y => x && y) true

/-- Detail::orAll from include/functional.hpp: the right fold of the
fold expression (args || ...), false on the empty pack. -/
def orAll (bs : List Bool) : Bool := bs.foldr (fun x y => x || y) false

/-- superpose from include/functional.hpp: with at least one inner function
it returns a lambda applying every g to the same arguments and combining the
results with f; the unary overload superpose(F&&) is explicitly deleted, so
with no inner functions the construct is rejected at compile time (none).
The inner functions are taken homogeneous so the pack can be a list. -/
def superpose {A B C : Type} (f : List B → C) (gs : List (A → B)) :
    Option (A → C) :=
  if gs.isEmpty then none
  else some (fun a => f (gs.map (fun g => g a)))

/-- allOf from include/functional.hpp:
Detail::makePredicateCombinator(Detail::andAll). -/
def allOf {A : Type} (ps : List (A → Bool)) : Option (A → Bool) :=
  superpose andAll ps

/-- anyOf from include/functional.hpp:
Detail::makePredicateCombinator(Detail::orAll). -/
def anyOf {A : Type} (ps : List (A → Bool)) : Option (A → Bool) :=
  superpose orAll ps

/-- The fold of Detail::andAll over the mapped predicate results is the
conjunction of the predicates at the argument. -/
theorem andAll_map_eq_all {A : Type} (ps : List (A → Bool)) (a : A) :
    andAll (ps.map (fun p => p a)) = ps.all (fun p => p a) := by
  induction ps with
  | nil => rfl
  | cons p ps ih =>
    simp only [List.map_cons, andAll, List.foldr_cons, List.all_cons] at ih ⊢
    rw [ih]

/-- The fold of Detail::orAll over the mapped predicate results is the
disjunction of the predicates at the argument. -/
theorem orAll_map_eq_any {A : Type} (ps : List (A → Bool)) (a : A) :
    orAll (ps.map (fun p => p a)) = ps.any (fun p => p a) := by
  induction ps with
  | nil => rfl
  | cons p ps ih =>
    simp only [List.map_cons, orAll, List.foldr_cons, List.any_cons] at ih ⊢
    rw [ih]

/-- C6: with at least one inner function, superpose(f, g1, ..., gn) yields a
combinator whose value at args is f(g1(args), ..., gn(args)); consequently
allOf is the conjunction and anyOf the disjunction of the predicates at the
shared argument. -/
theorem superpose_spec (A B C : Type) :
    (∀ (f : List B → C) (gs : List (A → B)) (a : A), gs ≠ [] →
      ∃ s, superpose f gs = some s ∧ s a = f (gs.map (fun g => g a))) ∧
    (∀ (ps : List (A → Bool)) (a : A), ps ≠ [] →
      ∃ s, allOf ps = some s ∧ s a = ps.all (fun p => p a)) ∧
    (∀ (ps : List (A → Bool)) (a : A), ps ≠ [] →
      ∃ s, anyOf ps = some s ∧ s a = ps.any (fun p => p a)) := by
  refine ⟨fun f gs a hne => ?_, fun ps a hne => ?_, fun ps a hne => ?_⟩
  · cases gs with
    | nil => exact absurd rfl hne
    | cons g rest => exact ⟨_, rfl, rfl⟩
  · cases ps with
    | nil => exact absurd rfl hne
    | cons p rest => exact ⟨_, rfl, andAll_map_eq_all (p :: rest) a⟩
  · cases ps with
    | nil => exact absurd rfl hne
    | cons p rest => exact ⟨_, rfl, orAll_map_eq_any (p :: rest) a⟩

/-- Witness for C6: two predicates over Nat combined with allOf,
evaluated at 3. -/
theorem superpose_spec_witness :
    ∃ s, allOf [fun n : Nat => decide (0 < n), fun n => decide (n < 5)]
        = some s ∧
      s 3 = [fun n : Nat => decide (0 < n), fun n => decide (n < 5)].all
        (fun p => p 3) :=
  (superpose_spec Nat Bool Bool).2.1
    [fun n : Nat => decide (0 < n), fun n => decide (n < 5)] 3 (by simp)

/-- C9: superpose cannot be given a single function and no inner functions:
the unary overload is deleted, so superpose(f), allOf() and anyOf() are
rejected rather than producing a combinator. -/
theorem superpose_rejects_empty (A B C : Type) :
    (∀ f : List B → C, superpose f ([] : List (A → B)) = none) ∧
    allOf ([] : List (A → Bool)) = none ∧
    anyOf ([] : List (A → Bool)) = none :=
  ⟨fun _ => rfl, rfl, rfl⟩

/-! ## functional.hpp: divided, mod and runtime failure -/

/-- The state captured by the lambda returned by compose(f, g): the copies
of f and g made at construction time.  operator() is const and never writes
them. -/
structure ComposeState (α β γ : Type) where
  f : β → γ
  g : α → β

/-- One invocation of the compose lambda, with the captured state passed and
returned explicitly: the body reads f and g, forwards the argument through
g then f, and leaves the state as it was. -/
def composeInvoke (s : ComposeState α β γ) (x : α) : γ × ComposeState α β γ :=
  (s.f (s.g x), s)

/-- The state captured by the lambda returned by bindFront(f, args...): the
callable and the bound argument list, immutable after construction. -/
structure BindFrontState (V R : Type) where
  f : List V → R
  bound : List V

/-- One invocation of the bindFront lambda with explicit state: the bound
arguments are prepended to the fresh ones and f is invoked; the state is
returned unchanged. -/
def bindFrontInvoke (s : BindFrontState V R) (rest : List V) :
    R × BindFrontState V R :=
  (s.f (s.bound ++ rest), s)

/-- C8: invoking a combinator leaves the captured function values unchanged,
and a second invocation of the same combinator object with the same
arguments — run from the state the first invocation returned — yields the
same result, so a combinator object may be invoked any number of times. -/
theorem combinators_pure_and_reinvocable (α β γ V R : Type) :
    (∀ (s : ComposeState α β γ) (x : α),
      (composeInvoke s x).2 = s ∧
      (composeInvoke (composeInvoke s x).2 x).1 = (composeInvoke s x).1) ∧
    (∀ (s : BindFrontState V R) (rest : List V),
      (bindFrontInvoke s rest).2 = s ∧
      (bindFrontInvoke (bindFrontInvoke s rest).2 rest).1
        = (bindFrontInvoke s rest).1) :=
  ⟨fun _ _ => ⟨rfl, rfl⟩, fun _ _ => ⟨rfl, rfl⟩⟩

end IDragnev.Functional
